import Mathlib

/-!
Verification of the Luau compatibility shim (the Lua 5.4 → Luau adapter header).

The shim is embedded shallowly: each adapter function of the header is
translated into a Lean definition over explicit state (stacks are lists,
the tag registry is an association list plus a counter, the thread-local
debug cursor is an explicit value).  VM primitives that are not part of
the repository (the Luau C API: `lua_pushvalue`, `lua_insert`, …,
`Luau::compile`, IEEE-754 casts) are modelled from their documented
behaviour; each such definition says so in its doc comment.
-/

namespace LuauCompatProof

/-! ## Loader/Compiler Adapter

`luaL_loadstring` / `luaL_loadbuffer` invoke `Luau::compile` on the source
text and inspect the produced byte buffer.  `Luau::compile` itself is
external to the repository, so the adapters are embedded as functions of
the compiler's output buffer (a byte sequence).  In the source:

    if (bytecode.empty() || bytecode[0] == 0) {
        if (bytecode.size() > 1) lua_pushstring(L, bytecode.c_str() + 1);
        else lua_pushstring(L, "compilation failed");
        return LUA_ERRSYNTAX;
    }
    return luau_load(L, name, bytecode.data(), bytecode.size(), 0);

`bytecode.c_str() + 1` reads the bytes after the first one (compiler
diagnostics contain no interior NUL, so this is the remainder of the
buffer), modelled as `List.tail`.
-/

/-- Outcome of the load adapters: either the whole compiled buffer is handed
to the native bytecode loader `luau_load`, or a syntax error with a message
is reported (`LUA_ERRSYNTAX`). -/
inductive LoadResult where
  | loaded (bytecode : List Nat)
  | syntaxError (msg : List Nat)
deriving DecidableEq, Repr

/-- The bytes of the literal C string `"compilation failed"` pushed when the
error buffer has no remainder. -/
def genericCompileError : List Nat := ("compilation failed".toList).map Char.toNat

/-- `luaL_loadstring`, as a function of the buffer produced by
`Luau::compile` on the NUL-terminated source text. -/
def luaL_loadstring (bytecode : List Nat) : LoadResult :=
  if bytecode = [] ∨ bytecode.head? = some 0 then
    if 1 < bytecode.length then .syntaxError bytecode.tail
    else .syntaxError genericCompileError
  else .loaded bytecode

/-- `luaL_loadbuffer`, as a function of the buffer produced by
`Luau::compile` on the sized source buffer.  Its body is the same
compile-then-check-then-load sequence as `luaL_loadstring`. -/
def luaL_loadbuffer (bytecode : List Nat) : LoadResult :=
  if bytecode = [] ∨ bytecode.head? = some 0 then
    if 1 < bytecode.length then .syntaxError bytecode.tail
    else .syntaxError genericCompileError
  else .loaded bytecode

/-- Whether the adapter took the success path into the native loader. -/
def LoadResult.isLoaded : LoadResult → Bool
  | .loaded _ => true
  | .syntaxError _ => false

/-! ## Numeric Fidelity Adapter

Luau's `lua_Integer` is 32-bit, so the shim routes 64-bit integers through
`lua_Number` (IEEE-754 double).  Lua numbers are embedded as rationals
(every finite double is a rational; NaN/infinity do not arise from the
integer casts the shim performs).  The C casts `(double)(int64_t)v` and
`(int64_t)(double)x` are external to the repository and are modelled from
their documented behaviour: int64→double rounds to the nearest
representable double (ties to even) at 53-bit mantissa granularity, and
double→int64 truncates toward zero. -/

/-- Number of binary digits, by repeated halving on a fuel argument (the
fuel `n` itself always suffices since halving reaches 0 within `n` steps). -/
def bitLengthAux : ℕ → ℕ → ℕ
  | 0, _ => 0
  | fuel + 1, n => if n = 0 then 0 else bitLengthAux fuel (n / 2) + 1

/-- Number of binary digits of a natural number (`0` for `0`). -/
def bitLength (n : ℕ) : ℕ := bitLengthAux n n

/-- Exponent of the spacing (ulp) between consecutive doubles around an
integer magnitude: integers of at most 53 bits sit in a region of spacing
`1`; a `53 + k` bit magnitude sits in a region of spacing `2 ^ k`. -/
def ulpExp (v : ℤ) : ℕ := bitLength v.natAbs - 53

/-- Round an integer to the nearest multiple of `2 ^ k`, ties to even. -/
def roundNearestEven (v : ℤ) (k : ℕ) : ℤ :=
  let m : ℤ := 2 ^ k
  let q := Int.ediv v m
  let r := Int.emod v m
  if 2 * r < m then q * m
  else if m < 2 * r then (q + 1) * m
  else if Int.emod q 2 = 0 then q * m else (q + 1) * m

/-- Modelled from the documented IEEE-754 behaviour of the C cast
`static_cast<double>(int64_t)` (external to the repository): the resulting
double is the input rounded to the nearest representable value.  The result
is returned as the integer value of that double. -/
def doubleOfInt64 (v : ℤ) : ℤ := roundNearestEven v (ulpExp v)

/-- A Lua value.  Numbers carry the rational value of the underlying double;
tables, functions, userdata and threads are identified by reference ids. -/
inductive LuaValue where
  | nil
  | boolean (b : Bool)
  | number (q : ℚ)
  | str (s : String)
  | table (id : ℕ)
  | function (id : ℕ)
  | userdataRef (id : ℕ)
  | thread (id : ℕ)
deriving DecidableEq, Repr

/-- Modelled from the documented behaviour of the C cast
`static_cast<int64_t>(double)` (external to the repository): truncation
toward zero. -/
def truncToInt64 (q : ℚ) : ℤ := Int.tdiv q.num (q.den : ℤ)

/-- Modelled from the Luau C API (external to the repository):
`lua_isnumber` is true for numeric stack values. -/
def lua_isnumber : LuaValue → Bool
  | .number _ => true
  | _ => false

/-- Modelled from the Luau C API (external to the repository):
`lua_tonumber` reads a numeric value, and returns `0` otherwise. -/
def lua_tonumber : LuaValue → ℚ
  | .number q => q
  | _ => 0

/-- `lua_pushinteger_64`: `lua_pushnumber(L, static_cast<double>(n))`. -/
def lua_pushinteger_64 (n : ℤ) : LuaValue := .number ((doubleOfInt64 n : ℤ) : ℚ)

/-- `lua_tointeger_64`: `static_cast<int64_t>(lua_tonumber(L, idx))`. -/
def lua_tointeger_64 (v : LuaValue) : ℤ := truncToInt64 (lua_tonumber v)

/-- `lua_isinteger`: false for non-numbers, else compares the number with
`static_cast<double>(static_cast<int64_t>(n))`. -/
def lua_isinteger (v : LuaValue) : Bool :=
  if !lua_isnumber v then false
  else
    let n := lua_tonumber v
    decide (n = ((doubleOfInt64 (truncToInt64 n) : ℤ) : ℚ))

/-! ## Stack Manipulation Adapter

A Lua stack is a list whose head is the bottom slot; position `i` (1-based,
as in the C API) is list index `i - 1`.  The primitives the shim is written
in terms of (`lua_pushvalue`, `lua_remove`, `lua_insert`, `lua_absindex`,
`lua_gettop`) are part of the Luau VM, external to the repository, and are
modelled from their documented Lua 5.1 behaviour. -/

/-- Modelled from the Lua C API (external to the repository):
`lua_pushvalue(L, i)` pushes a copy of the value at position `i`. -/
def lua_pushvalue {V : Type} (s : List V) (i : ℕ) : List V :=
  s ++ (s.drop (i - 1)).take 1

/-- Modelled from the Lua C API (external to the repository):
`lua_remove(L, i)` removes the value at position `i`, shifting the values
above it down. -/
def lua_remove {V : Type} (s : List V) (i : ℕ) : List V :=
  s.take (i - 1) ++ s.drop i

/-- Modelled from the Lua C API (external to the repository):
`lua_insert(L, p)` moves the top value into position `p`, shifting the
values above `p` up. -/
def lua_insert {V : Type} (s : List V) (p : ℕ) : List V :=
  (s.dropLast.take (p - 1)) ++ s.drop (s.length - 1) ++ (s.dropLast.drop (p - 1))

/-- Modelled from the Lua C API (external to the repository):
`lua_absindex` converts a relative (negative) index into an absolute one. -/
def lua_absindex {V : Type} (s : List V) (idx : ℤ) : ℤ :=
  if 0 < idx then idx else s.length + idx + 1

/-- One iteration of the shim's positive-rotation loop:
`lua_pushvalue(L, idx); lua_remove(L, idx); lua_insert(L, t)`. -/
def rotateStepPos {V : Type} (s : List V) (j t : ℕ) : List V :=
  lua_insert (lua_remove (lua_pushvalue s j) j) t

/-- One iteration of the shim's negative-rotation loop:
`lua_pushvalue(L, t); lua_remove(L, t); lua_insert(L, idx)`. -/
def rotateStepNeg {V : Type} (s : List V) (j t : ℕ) : List V :=
  lua_insert (lua_remove (lua_pushvalue s t) t) j

/-- The shim's `lua_rotate(L, idx, n)`: `t = lua_gettop(L)`,
`idx = lua_absindex(L, idx)`, then `n` iterations of the positive loop when
`n > 0`, `-n` iterations of the negative loop when `n < 0`.  (The local
`m = (n >= 0) ? (t - n) : (-n - 1)` of the source is computed but never
used.) -/
def lua_rotate {V : Type} (s : List V) (idx : ℤ) (n : ℤ) : List V :=
  let t := s.length
  let j := (lua_absindex s idx).toNat
  if 0 < n then (fun st => rotateStepPos st j t)^[n.toNat] s
  else if n < 0 then (fun st => rotateStepNeg st j t)^[(-n).toNat] s
  else s

/-- Left rotation of a list by one (first element moves to the back). -/
def rotl {V : Type} : List V → List V
  | [] => []
  | a :: rest => rest ++ [a]

/-- Right rotation of a list by one (last element moves to the front). -/
def rotr {V : Type} (l : List V) : List V :=
  l.drop (l.length - 1) ++ l.dropLast

/-- Modelled from the spec (the native `lua_rotate` of Lua 5.4 is not part
of this repository; this is the comparison target for the refinement
claim): rotates the sub-stack from position `idx` to the top by `n`
positions toward the top for positive `n` (the top `n` values move to the
bottom of the segment), and by `-n` positions toward the bottom for
negative `n`.  Defined for `|n|` at most the segment length. -/
def nativeRotate {V : Type} (s : List V) (idx : ℕ) (n : ℤ) : List V :=
  let pre := s.take (idx - 1)
  let seg := s.drop (idx - 1)
  let k := seg.length
  if 0 ≤ n then pre ++ (seg.drop (k - n.toNat) ++ seg.take (k - n.toNat))
  else pre ++ (seg.drop (-n).toNat ++ seg.take (-n).toNat)

/-! ## Tag Registry and Userdata Lifetime Adapter

`LuauCompat::get_or_create_tag` keeps a process-wide
`std::unordered_map<std::string, int> tag_map` and a counter
`int next_tag = 1` behind a mutex.  The mutex serialises the calls, so the
function is embedded as a pure transition on an explicit registry state;
the map is an association list (newest entry first) over an arbitrary key
type with decidable equality (the source instantiates it at
`std::string`). -/

/-- `MAX_USERDATA_TAGS`: maximum number of userdata tags supported. -/
def MAX_USERDATA_TAGS : ℕ := 256

/-- The statics of `get_or_create_tag`: the name → tag map and the counter. -/
structure TagRegistry (α : Type) where
  tag_map : List (α × ℕ)
  next_tag : ℕ
deriving Repr

/-- The initial registry: empty map, `next_tag = 1` (tag 0 is reserved for
untagged userdata). -/
def initRegistry {α : Type} : TagRegistry α := ⟨[], 1⟩

/-- `tag_map.find(name)` on the association-list embedding of the map. -/
def lookupTag {α : Type} [DecidableEq α] : List (α × ℕ) → α → Option ℕ
  | [], _ => none
  | (k, v) :: rest, name => if k = name then some v else lookupTag rest name

/-- `LuauCompat::get_or_create_tag`: return the existing tag for `name` if
present; otherwise take `tag = next_tag++`, fall back to `0` when
`tag >= MAX_USERDATA_TAGS` (without inserting), else insert
`tag_map[name] = tag` and return it. -/
def get_or_create_tag {α : Type} [DecidableEq α] (st : TagRegistry α) (name : α) :
    ℕ × TagRegistry α :=
  match lookupTag st.tag_map name with
  | some t => (t, st)
  | none =>
    let tag := st.next_tag
    if MAX_USERDATA_TAGS ≤ tag then (0, ⟨st.tag_map, tag + 1⟩)
    else (tag, ⟨(name, tag) :: st.tag_map, tag + 1⟩)

/-- Run `get_or_create_tag` in sequence for each name of a list, keeping
only the final registry state. -/
def registerAll {α : Type} [DecidableEq α] (st : TagRegistry α) (ns : List α) :
    TagRegistry α :=
  ns.foldl (fun s n => (get_or_create_tag s n).2) st

/-- Registry states reachable from the initial statics by some sequence of
`get_or_create_tag` calls. -/
inductive Reachable {α : Type} [DecidableEq α] : TagRegistry α → Prop where
  | init : Reachable initRegistry
  | step (st : TagRegistry α) (n : α) : Reachable st →
      Reachable (get_or_create_tag st n).2

/-- Invariant of the registry statics: the counter starts at 1 and never
drops below it, every stored tag is nonzero, below the counter and below
`MAX_USERDATA_TAGS`, and distinct names never share a stored tag. -/
def RegistryInv {α : Type} [DecidableEq α] (st : TagRegistry α) : Prop :=
  1 ≤ st.next_tag ∧
  (∀ k v, lookupTag st.tag_map k = some v →
    1 ≤ v ∧ v + 1 ≤ st.next_tag ∧ v < MAX_USERDATA_TAGS) ∧
  (∀ k₁ k₂ v, lookupTag st.tag_map k₁ = some v →
    lookupTag st.tag_map k₂ = some v → k₁ = k₂)

/-- The allocation a userdata-creation call requests from the VM: tagged
(`lua_newuserdatatagged`) or plain (`lua_newuserdata`). -/
inductive Alloc where
  | tagged (sz : ℕ) (tag : ℕ)
  | plain (sz : ℕ)
deriving DecidableEq, Repr

/-- `LuauCompat::newuserdata_tagged`: a tagged allocation for `tag > 0`,
a plain allocation otherwise. -/
def newuserdata_tagged (sz : ℕ) (tag : ℕ) : Alloc :=
  if 0 < tag then .tagged sz tag else .plain sz

/-- Modelled from the spec: the VM (external to the repository) invokes,
on reclamation, the destructor registered for a tagged allocation's tag;
a plain `lua_newuserdata` allocation has no destructor associated, so no
finalizer ever runs for it. -/
def Alloc.finalizerTag : Alloc → Option ℕ
  | .tagged _ t => some t
  | .plain _ => none

/-! ## User-Value Emulation

`lua_setiuservalue` / `lua_getiuservalue` emulate Lua 5.4's indexed
uservalues with the userdata's environment table (`lua_getfenv` /
`lua_setfenv`), stored here as an optional association list from integer
keys to values (`none` = no auxiliary table yet, the case the source
guards with `lua_isnil` after `lua_getfenv`).  The source's stack
choreography (push value, fetch env, `lua_rawseti` / `lua_rawgeti`,
pop/remove the temporaries) is embedded at the level of the userdata's
table state and the returned value. -/

/-- A userdata together with its optional environment table. -/
structure Userdata where
  env : Option (List (ℤ × LuaValue))

/-- Modelled from the Lua C API (external to the repository):
`lua_rawgeti(t, n)` — first match in the association list, `nil` when the
key is absent. -/
def rawgetTable : List (ℤ × LuaValue) → ℤ → LuaValue
  | [], _ => .nil
  | (k, v) :: rest, n => if k = n then v else rawgetTable rest n

/-- Modelled from the Lua C API (external to the repository):
`lua_rawseti(t, n)` — store the value under key `n` (a newer entry shadows
an older one for `rawgetTable`). -/
def rawsetTable (t : List (ℤ × LuaValue)) (n : ℤ) (v : LuaValue) :
    List (ℤ × LuaValue) :=
  (n, v) :: t

/-- `lua_setiuservalue(L, idx, n)` with `v` the value at the top of the
stack: create the environment table on first use
(`lua_createtable; lua_setfenv`), then `env[n] = v`; returns 1. -/
def lua_setiuservalue (u : Userdata) (n : ℤ) (v : LuaValue) : Userdata × ℕ :=
  match u.env with
  | none => (⟨some (rawsetTable [] n v)⟩, 1)
  | some t => (⟨some (rawsetTable t n v)⟩, 1)

/-- `lua_getiuservalue(L, idx, n)`: `nil` when the userdata has no
environment table, else `env[n]` (which is `nil` when the key is absent);
the returned value is what the source leaves on top of the stack. -/
def lua_getiuservalue (u : Userdata) (n : ℤ) : LuaValue :=
  match u.env with
  | none => .nil
  | some t => rawgetTable t n

/-! ## Debug-Frame Adapter

`lua_getstack` validates a level against `lua_stackdepth` (a VM query,
passed in as `depth`), records it in the thread-local
`LuauCompat::s_current_debug_level` (passed in and returned as `cursor`;
it is initialised to `0`), and blanks the `lua_Debug` fields.
`luau_getinfo_3arg` / `luau_getlocal_3arg` forward the stored cursor as
the level of the native 4-argument query. -/

/-- The `lua_Debug` fields the shim initialises. -/
structure lua_Debug where
  name : Option String
  what : Option String
  source : Option String
  short_src : Option String
  linedefined : ℤ
  currentline : ℤ
deriving DecidableEq, Repr

/-- The frame contents `lua_getstack` writes on success: null pointers and
`-1` line numbers. -/
def blankFrame : lua_Debug := ⟨none, none, none, none, -1, -1⟩

/-- Result of a `lua_getstack` call: the C return value, the thread-local
debug cursor after the call, and the frame contents after the call. -/
structure GetStackResult where
  ret : ℕ
  cursor : ℤ
  ar : lua_Debug
deriving DecidableEq, Repr

/-- `lua_getstack(L, level, ar)` with `depth = lua_stackdepth(L)` and
`cursor` the current `s_current_debug_level`: return 0 when
`level < 0 || level >= depth`, else store the level in the cursor,
blank the frame and return 1. -/
def lua_getstack (cursor : ℤ) (depth : ℤ) (level : ℤ) (ar : lua_Debug) :
    GetStackResult :=
  if level < 0 ∨ depth ≤ level then ⟨0, cursor, ar⟩
  else ⟨1, level, blankFrame⟩

/-- `luau_getinfo_3arg`: the level it passes to the native
`lua_getinfo(L, level, what, ar)` is the stored cursor. -/
def luau_getinfo_3arg (cursor : ℤ) : ℤ := cursor

/-- `luau_getlocal_3arg`: the `(level, n)` pair it passes to the native
`lua_getlocal(L, level, n)`; the `ar` argument is ignored. -/
def luau_getlocal_3arg (cursor : ℤ) (n : ℤ) : ℤ × ℤ := (cursor, n)

/-- A thread's debug-API history: `capture level depth` is a
`lua_getstack(L, level, ar)` call made while the stack depth was `depth`;
`query` is a `luau_getinfo_3arg`/`luau_getlocal_3arg` call. -/
inductive DebugEvent where
  | capture (level : ℤ) (depth : ℤ)
  | query
deriving DecidableEq, Repr

/-- Evolution of the thread-local debug cursor under one event. -/
def stepCursor (c : ℤ) : DebugEvent → ℤ
  | .capture level depth => (lua_getstack c depth level blankFrame).cursor
  | .query => c

/-- The cursor after a history of events, starting from the thread-local
initialiser `0`. -/
def cursorAfter (es : List DebugEvent) : ℤ :=
  es.foldl stepCursor 0

/-- The most recently successfully captured level of a history (`0` when no
capture ever succeeded) — the level the spec says a subsequent query must
use. -/
def lastCapturedLevel (es : List DebugEvent) : ℤ :=
  es.foldl
    (fun acc e =>
      match e with
      | .capture level depth => if 0 ≤ level ∧ level < depth then level else acc
      | .query => acc)
    0

/-! ## Theorems -/

/-- C1 counterexample: a buffer whose first byte is `0` is taken down the
compile-failure path (with the remainder as the message), and a buffer with
a nonzero leading byte is the one handed to the native loader — the
opposite of the claimed reading of the first byte. -/
theorem load_first_byte_c1_counterexample :
    (luaL_loadstring [0, 65]).isLoaded = false ∧
      luaL_loadstring [0, 65] = .syntaxError [65] ∧
      (luaL_loadstring [7, 1]).isLoaded = true := by
  decide

/-- C1 (amended): both load adapters inspect the first byte of the
compiler's output; a first byte equal to 0 (or an empty buffer) signals a
compile-time failure whose error message is the remainder of the buffer
(or a generic message if the buffer has no remainder), and any nonzero
leading byte signals the success path into the native bytecode loader. -/
theorem load_first_byte_contract (bc : List ℕ) :
    luaL_loadbuffer bc = luaL_loadstring bc ∧
    ((bc = [] ∨ bc.head? = some 0) →
      luaL_loadstring bc =
        .syntaxError (if 1 < bc.length then bc.tail else genericCompileError)) ∧
    (∀ b, bc.head? = some b → b ≠ 0 → luaL_loadstring bc = .loaded bc) := by
  refine ⟨rfl, fun h => ?_, fun b hb hb0 => ?_⟩
  · simp only [luaL_loadstring, if_pos h]
    split <;> rfl
  · have hcond : ¬(bc = [] ∨ bc.head? = some 0) := by
      rintro (rfl | hz)
      · simp at hb
      · rw [hb] at hz
        exact hb0 (Option.some.inj hz)
    simp only [luaL_loadstring, if_neg hcond]

/-- C1 witness: the amended contract evaluated on a failing buffer and on a
successful buffer. -/
theorem load_first_byte_contract_witness :
    luaL_loadstring [0, 65] = .syntaxError [65] ∧
      luaL_loadstring [7] = .loaded [7] := by
  constructor
  · have h := (load_first_byte_contract [0, 65]).2.1 (Or.inr rfl)
    simpa using h
  · exact (load_first_byte_contract [7]).2.2 7 rfl (by decide)

/-- `rawgetTable` returns `nil` when no entry of the table carries the key. -/
theorem rawgetTable_absent (t : List (ℤ × LuaValue)) (m : ℤ)
    (h : ∀ p ∈ t, p.1 ≠ m) : rawgetTable t m = .nil := by
  induction t with
  | nil => rfl
  | cons p rest ih =>
    have hp : p.1 ≠ m := h p (List.mem_cons_self p rest)
    obtain ⟨k, v⟩ := p
    simp only [rawgetTable, if_neg hp]
    exact ih fun q hq => h q (List.mem_cons_of_mem _ hq)

/-- C8: storing a value at positional index `n` with `lua_setiuservalue`
(creating the auxiliary environment table on first use) makes
`lua_getiuservalue` at `n` return exactly that value, and
`lua_getiuservalue` returns `nil` with no error both when the userdata has
no auxiliary table yet and when the key is absent from it. -/
theorem uservalue_set_get (u : Userdata) (n m : ℤ) (v : LuaValue) :
    lua_getiuservalue (lua_setiuservalue u n v).1 n = v ∧
    (u.env = none → lua_getiuservalue u m = .nil) ∧
    (∀ t, u.env = some t → (∀ p ∈ t, p.1 ≠ m) → lua_getiuservalue u m = .nil) := by
  refine ⟨?_, fun h => ?_, fun t ht habs => ?_⟩
  · cases h : u.env <;>
      simp [lua_setiuservalue, lua_getiuservalue, rawsetTable, rawgetTable, h]
  · simp [lua_getiuservalue, h]
  · simp only [lua_getiuservalue, ht]
    exact rawgetTable_absent t m habs

/-- C8 witness: `set(obj, 1, "x"); get(obj, 1) = "x"`, `get` on a userdata
with no auxiliary table returns `nil`, and `get` at an absent key returns
`nil`. -/
theorem uservalue_set_get_witness :
    lua_getiuservalue (lua_setiuservalue ⟨none⟩ 1 (.str "x")).1 1 = .str "x" ∧
      lua_getiuservalue ⟨none⟩ 2 = .nil ∧
      lua_getiuservalue ⟨some [(1, .str "x")]⟩ 2 = .nil :=
  ⟨(uservalue_set_get ⟨none⟩ 1 2 (.str "x")).1,
   (uservalue_set_get ⟨none⟩ 1 2 (.str "x")).2.1 rfl,
   (uservalue_set_get ⟨some [(1, .str "x")]⟩ 1 2 (.str "x")).2.2
     [(1, .str "x")] rfl (by decide)⟩

/-- C9: `lua_getstack` returns 0 exactly when the level is negative or at
least the current stack depth; for every level in range it returns 1,
records the level in the thread-scoped debug cursor, and hands back a frame
whose name/what/source/short_src are null and whose linedefined and
currentline are `-1`. -/
theorem lua_getstack_spec (cursor depth level : ℤ) (ar : lua_Debug) :
    ((lua_getstack cursor depth level ar).ret = 0 ↔ level < 0 ∨ depth ≤ level) ∧
    (0 ≤ level → level < depth →
      lua_getstack cursor depth level ar =
        ⟨1, level, ⟨none, none, none, none, -1, -1⟩⟩) := by
  constructor
  · unfold lua_getstack
    split
    · rename_i h
      simp [h]
    · rename_i h
      simpa using h
  · intro h1 h2
    unfold lua_getstack
    rw [if_neg (by omega)]
    rfl

/-- C9 witness: the in-range instance `lua_getstack 7 3 1` and its
hypotheses evaluated concretely. -/
theorem lua_getstack_spec_witness :
    (0 : ℤ) ≤ 1 ∧ (1 : ℤ) < 3 ∧
      lua_getstack 7 3 1 blankFrame = ⟨1, 1, ⟨none, none, none, none, -1, -1⟩⟩ :=
  ⟨by decide, by decide,
   (lua_getstack_spec 7 3 1 blankFrame).2 (by decide) (by decide)⟩

/-- The thread-local cursor evolves exactly as the spec-side
"last successfully captured level" recursion. -/
theorem cursor_foldl_eq (es : List DebugEvent) (c : ℤ) :
    es.foldl stepCursor c =
      es.foldl
        (fun acc e =>
          match e with
          | .capture level depth => if 0 ≤ level ∧ level < depth then level else acc
          | .query => acc)
        c := by
  induction es generalizing c with
  | nil => rfl
  | cons e rest ih =>
    have hstep : stepCursor c e =
        (match e with
          | .capture level depth => if 0 ≤ level ∧ level < depth then level else c
          | .query => c) := by
      cases e with
      | capture level depth =>
        simp only [stepCursor, lua_getstack]
        split <;> split <;> first | rfl | omega
      | query => rfl
    simp only [List.foldl_cons, hstep, ih]

/-- C10: an out-of-range `lua_getstack` leaves the thread-local debug
cursor unchanged, so a subsequent `luau_getinfo_3arg` or
`luau_getlocal_3arg` on the same thread still queries the most recently
successfully captured level, or the initial level 0 if no capture ever
succeeded. -/
theorem debug_cursor_atomic (es : List DebugEvent) (c level depth : ℤ) :
    ((level < 0 ∨ depth ≤ level) →
      (lua_getstack c depth level blankFrame).cursor = c) ∧
    luau_getinfo_3arg (cursorAfter es) = lastCapturedLevel es ∧
    (luau_getlocal_3arg (cursorAfter es) 1).1 = lastCapturedLevel es := by
  refine ⟨fun h => ?_, ?_, ?_⟩
  · unfold lua_getstack
    rw [if_pos h]
  · exact cursor_foldl_eq es 0
  · exact cursor_foldl_eq es 0

/-- C10 witness: a failed capture (level 5 at depth 2) keeps the cursor at
9, and on the history [successful capture of 0, failed capture of 5] the
next query still uses the last successful level. -/
theorem debug_cursor_atomic_witness :
    ((5 : ℤ) < 0 ∨ (2 : ℤ) ≤ 5) ∧
      (lua_getstack 9 2 5 blankFrame).cursor = 9 ∧
      luau_getinfo_3arg (cursorAfter [.capture 0 2, .capture 5 2]) =
        lastCapturedLevel [.capture 0 2, .capture 5 2] :=
  ⟨Or.inr (by decide),
   (debug_cursor_atomic [] 9 5 2).1 (Or.inr (by decide)),
   (debug_cursor_atomic [.capture 0 2, .capture 5 2] 9 5 2).2.1⟩

/-- `bitLengthAux` with sufficient fuel computes `Nat.log2 n + 1` for
nonzero `n`. -/
theorem bitLengthAux_eq (fuel n : ℕ) (h : n ≤ fuel) :
    bitLengthAux fuel n = if n = 0 then 0 else Nat.log2 n + 1 := by
  induction fuel generalizing n with
  | zero =>
    have : n = 0 := Nat.le_zero.mp h
    subst this
    rfl
  | succ fuel ih =>
    by_cases hn : n = 0
    · subst hn; rfl
    · simp only [bitLengthAux, if_neg hn]
      have hpos : 0 < n := Nat.pos_of_ne_zero hn
      have hhalf : n / 2 ≤ fuel := by
        have := Nat.div_lt_self hpos (by decide : 1 < 2)
        omega
      rw [ih _ hhalf]
      by_cases h2 : n / 2 = 0
      · have hn1 : n = 1 := by omega
        subst hn1
        have hl : Nat.log2 1 = 0 := by
          unfold Nat.log2
          norm_num
        simp [hl]
      · have hn2 : 2 ≤ n := by omega
        rw [if_neg h2]
        have hl : Nat.log2 n = Nat.log2 (n / 2) + 1 := by
          conv_lhs => unfold Nat.log2
          rw [if_pos hn2]
        omega

/-- A natural below `2 ^ k` has at most `k` binary digits. -/
theorem bitLength_le_of_lt {n k : ℕ} (hk : n < 2 ^ k) : bitLength n ≤ k := by
  rw [bitLength, bitLengthAux_eq n n le_rfl]
  split
  · exact Nat.zero_le k
  · rename_i hn
    have := (Nat.log2_lt hn).mpr hk
    omega

/-- Rounding at spacing `2 ^ 0 = 1` is the identity. -/
theorem roundNearestEven_zeroExp (v : ℤ) : roundNearestEven v 0 = v := by
  have h1 : Int.emod v 1 = 0 := Int.emod_one v
  have h2 : Int.ediv v 1 = v := Int.ediv_one v
  simp [roundNearestEven, h1, h2]

/-- Every integer of magnitude at most `2 ^ 53` is exactly representable:
the int64→double cast returns it unchanged. -/
theorem doubleOfInt64_exact (v : ℤ) (h : v.natAbs ≤ 2 ^ 53) :
    doubleOfInt64 v = v := by
  rcases Nat.lt_or_ge v.natAbs (2 ^ 53) with hlt | hge
  · have h0 : ulpExp v = 0 := Nat.sub_eq_zero_of_le (bitLength_le_of_lt hlt)
    rw [doubleOfInt64, h0, roundNearestEven_zeroExp]
  · have heq : v.natAbs = 2 ^ 53 := le_antisymm h hge
    rcases Int.natAbs_eq_iff.mp heq with h' | h' <;>
      · rw [h']
        norm_num
        decide

/-- The double→int64 truncation of an integer-valued double is that
integer. -/
theorem truncToInt64_intCast (v : ℤ) : truncToInt64 ((v : ℤ) : ℚ) = v := by
  simp [truncToInt64, Rat.num_intCast, Rat.den_intCast, Int.tdiv_one]

/-- C2: for every 64-bit integer of magnitude at most `2^53`, reading back
a pushed integer returns it unchanged —
`lua_tointeger_64 (lua_pushinteger_64 v) = v`, where the push stores the
nearest double and the read truncates toward zero. -/
theorem pushinteger_tointeger_roundtrip (v : ℤ) (h : |v| ≤ 2 ^ 53) :
    lua_tointeger_64 (lua_pushinteger_64 v) = v := by
  have habs : v.natAbs ≤ 2 ^ 53 := by
    rw [Int.abs_eq_natAbs] at h
    exact_mod_cast h
  rw [lua_pushinteger_64, doubleOfInt64_exact v habs]
  simp only [lua_tointeger_64, lua_tonumber]
  exact truncToInt64_intCast v

/-- C2 witness: the round-trip at `v = 2^53` (the exactness boundary) and
at `v = -42`. -/
theorem pushinteger_tointeger_roundtrip_witness :
    |(9007199254740992 : ℤ)| ≤ 2 ^ 53 ∧ |(-42 : ℤ)| ≤ 2 ^ 53 ∧
      lua_tointeger_64 (lua_pushinteger_64 9007199254740992) = 9007199254740992 ∧
      lua_tointeger_64 (lua_pushinteger_64 (-42)) = -42 :=
  ⟨by decide, by decide,
   pushinteger_tointeger_roundtrip 9007199254740992 (by decide),
   pushinteger_tointeger_roundtrip (-42) (by decide)⟩

/-- C7: `lua_isinteger` is true exactly on the numeric values that equal
their own truncation-to-int64-and-back-to-double conversion, and is false
on every non-numeric value. -/
theorem lua_isinteger_spec (v : LuaValue) :
    (lua_isinteger v = true ↔
      ∃ q : ℚ, v = .number q ∧ q = ((doubleOfInt64 (truncToInt64 q) : ℤ) : ℚ)) ∧
    (lua_isnumber v = false → lua_isinteger v = false) := by
  cases v <;> simp [lua_isinteger, lua_isnumber, lua_tonumber]

/-- C7 witness: `lua_isinteger` holds at the integral number `42` and fails
at the non-numeric value `nil`. -/
theorem lua_isinteger_spec_witness :
    lua_isinteger (.number 42) = true ∧ lua_isinteger .nil = false :=
  ⟨(lua_isinteger_spec (.number 42)).1.mpr ⟨42, rfl, by decide⟩,
   (lua_isinteger_spec .nil).2 rfl⟩

/-- `lua_insert` at the top position is the identity: the top value is
moved onto itself. -/
theorem lua_insert_top {V : Type} (R : List V) : lua_insert R R.length = R := by
  unfold lua_insert
  rw [List.dropLast_eq_take]
  rw [List.take_take]
  simp only [min_self]
  have h : (R.take (R.length - 1)).length ≤ R.length - 1 := by
    rw [List.length_take]; omega
  rw [List.drop_eq_nil_of_le h, List.append_nil]
  exact List.take_append_drop _ R

/-- One iteration of the positive loop moves the value at position `j` to
the top: it rotates the segment from `j` to the top one place toward the
base. -/
theorem rotateStepPos_spec {V : Type} (pre rest : List V) (a : V) :
    rotateStepPos (pre ++ a :: rest) (pre.length + 1) (pre.length + (rest.length + 1)) =
      pre ++ rotl (a :: rest) := by
  have hpush : lua_pushvalue (pre ++ a :: rest) (pre.length + 1) =
      pre ++ (a :: (rest ++ [a])) := by
    unfold lua_pushvalue
    rw [Nat.add_sub_cancel, List.drop_left]
    simp
  have hrem : lua_remove (pre ++ (a :: (rest ++ [a]))) (pre.length + 1) =
      pre ++ (rest ++ [a]) := by
    unfold lua_remove
    rw [Nat.add_sub_cancel, List.take_left]
    rw [← List.drop_drop, List.drop_left]
    rfl
  have hlen : pre.length + (rest.length + 1) = (pre ++ (rest ++ [a])).length := by
    simp
  rw [rotateStepPos, hpush, hrem, hlen, lua_insert_top]
  rfl

/-- One iteration of the negative loop moves the top value to position `j`:
it rotates the segment from `j` to the top one place toward the top. -/
theorem rotateStepNeg_spec {V : Type} (pre xs : List V) (z : V) :
    rotateStepNeg (pre ++ (xs ++ [z])) (pre.length + 1) (pre.length + (xs.length + 1)) =
      pre ++ rotr (xs ++ [z]) := by
  have hassoc : pre ++ (xs ++ [z]) = (pre ++ xs) ++ [z] := by simp
  have hlen1 : pre.length + (xs.length + 1) - 1 = (pre ++ xs).length := by simp
  have hpush : lua_pushvalue (pre ++ (xs ++ [z])) (pre.length + (xs.length + 1)) =
      (pre ++ xs) ++ [z] ++ [z] := by
    unfold lua_pushvalue
    rw [hassoc, hlen1, List.drop_left]
    rfl
  have hrem : lua_remove ((pre ++ xs) ++ [z] ++ [z]) (pre.length + (xs.length + 1)) =
      (pre ++ xs) ++ [z] := by
    unfold lua_remove
    rw [hlen1]
    rw [List.append_assoc (pre ++ xs), List.take_left, show pre.length + (xs.length + 1) =
      (pre ++ xs).length + 1 from by simp; omega, ← List.drop_drop, List.drop_left]
    simp
  have hins : lua_insert ((pre ++ xs) ++ [z]) (pre.length + 1) = pre ++ (z :: xs) := by
    unfold lua_insert
    rw [Nat.add_sub_cancel, List.dropLast_concat]
    have h1 : ((pre ++ xs) ++ [z]).length - 1 = (pre ++ xs).length := by simp
    rw [h1, List.drop_left, List.take_left, List.drop_left]
    simp
  have hrotr : rotr (xs ++ [z]) = z :: xs := by
    unfold rotr
    have h2 : (xs ++ [z]).length - 1 = xs.length := by simp
    rw [h2, List.drop_left, List.dropLast_concat]
    rfl
  rw [rotateStepNeg, hpush, hrem, hins, hrotr]

/-- `rotl` preserves length. -/
theorem rotl_length {V : Type} (l : List V) : (rotl l).length = l.length := by
  cases l <;> simp [rotl]

/-- `rotr` preserves length. -/
theorem rotr_length {V : Type} (l : List V) : (rotr l).length = l.length := by
  cases l using List.reverseRecOn with
  | nil => rfl
  | append_singleton xs x => simp [rotr, List.dropLast_concat]

/-- `rotl` preserves non-emptiness. -/
theorem rotl_ne_nil {V : Type} (l : List V) (h : l ≠ []) : rotl l ≠ [] := by
  cases l with
  | nil => exact absurd rfl h
  | cons a rest => simp [rotl]

/-- `rotr` preserves non-emptiness. -/
theorem rotr_ne_nil {V : Type} (l : List V) (h : l ≠ []) : rotr l ≠ [] := by
  intro hc
  have hl := rotr_length l
  rw [hc] at hl
  exact h (List.eq_nil_of_length_eq_zero hl.symm)

/-- A right rotation undoes a left rotation. -/
theorem rotr_rotl {V : Type} (l : List V) : rotr (rotl l) = l := by
  cases l with
  | nil => rfl
  | cons a rest => simp [rotl, rotr, List.dropLast_concat]

/-- A left rotation undoes a right rotation. -/
theorem rotl_rotr {V : Type} (l : List V) : rotl (rotr l) = l := by
  cases l using List.reverseRecOn with
  | nil => rfl
  | append_singleton xs x =>
    simp only [rotr, List.dropLast_concat, List.length_append, List.length_cons,
      List.length_nil]
    have h : xs.length + (0 + 1) - 1 = xs.length := by omega
    rw [h, List.drop_left]
    simp [rotl]

/-- Iterated `rotl` preserves length. -/
theorem rotl_iterate_length {V : Type} (k : ℕ) (l : List V) :
    (rotl^[k] l).length = l.length := by
  induction k with
  | zero => rfl
  | succ k ih => rw [Function.iterate_succ_apply', rotl_length, ih]

/-- Iterated `rotr` preserves length. -/
theorem rotr_iterate_length {V : Type} (k : ℕ) (l : List V) :
    (rotr^[k] l).length = l.length := by
  induction k with
  | zero => rfl
  | succ k ih => rw [Function.iterate_succ_apply', rotr_length, ih]

/-- `k` right rotations undo `k` left rotations. -/
theorem rotr_iterate_rotl {V : Type} (k : ℕ) (l : List V) :
    rotr^[k] (rotl^[k] l) = l := by
  induction k generalizing l with
  | zero => rfl
  | succ k ih =>
    rw [Function.iterate_succ_apply rotl, Function.iterate_succ_apply' rotr,
      ih (rotl l), rotr_rotl]

/-- `k` left rotations undo `k` right rotations. -/
theorem rotl_iterate_rotr {V : Type} (k : ℕ) (l : List V) :
    rotl^[k] (rotr^[k] l) = l := by
  induction k generalizing l with
  | zero => rfl
  | succ k ih =>
    rw [Function.iterate_succ_apply rotr, Function.iterate_succ_apply' rotl,
      ih (rotr l), rotl_rotr]

/-- The positive loop, iterated `k` times over a stack split into a prefix
and a nonempty segment, left-rotates the segment `k` times. -/
theorem rotPos_iter {V : Type} (k : ℕ) (pre : List V) :
    ∀ seg : List V, seg ≠ [] →
      (fun st => rotateStepPos st (pre.length + 1) (pre.length + seg.length))^[k]
          (pre ++ seg) =
        pre ++ rotl^[k] seg := by
  induction k with
  | zero => intro seg _; rfl
  | succ k ih =>
    intro seg hseg
    cases seg with
    | nil => exact absurd rfl hseg
    | cons a rest =>
      rw [Function.iterate_succ_apply, Function.iterate_succ_apply]
      have hstep : rotateStepPos (pre ++ a :: rest) (pre.length + 1)
          (pre.length + (a :: rest).length) = pre ++ rotl (a :: rest) := by
        simpa using rotateStepPos_spec pre rest a
      rw [hstep]
      have hlen : (a :: rest).length = (rotl (a :: rest)).length :=
        (rotl_length _).symm
      rw [hlen]
      exact ih (rotl (a :: rest)) (rotl_ne_nil _ (by simp))

/-- The negative loop, iterated `k` times over a stack split into a prefix
and a nonempty segment, right-rotates the segment `k` times. -/
theorem rotNeg_iter {V : Type} (k : ℕ) (pre : List V) :
    ∀ seg : List V, seg ≠ [] →
      (fun st => rotateStepNeg st (pre.length + 1) (pre.length + seg.length))^[k]
          (pre ++ seg) =
        pre ++ rotr^[k] seg := by
  induction k with
  | zero => intro seg _; rfl
  | succ k ih =>
    intro seg hseg
    cases seg using List.reverseRecOn with
    | nil => exact absurd rfl hseg
    | append_singleton xs z =>
      rw [Function.iterate_succ_apply, Function.iterate_succ_apply]
      have hstep : rotateStepNeg (pre ++ (xs ++ [z])) (pre.length + 1)
          (pre.length + (xs ++ [z]).length) = pre ++ rotr (xs ++ [z]) := by
        have := rotateStepNeg_spec pre xs z
        simpa using this
      rw [hstep]
      have hlen : (xs ++ [z]).length = (rotr (xs ++ [z])).length :=
        (rotr_length _).symm
      rw [hlen]
      exact ih (rotr (xs ++ [z])) (rotr_ne_nil _ (by simp))

/-- For a valid positive index and `n > 0`, the shim's rotate left-rotates
(toward the base) the segment from `idx` to the top, `n` times. -/
theorem lua_rotate_eq_pos {V : Type} (s : List V) (idx n : ℤ) (h1 : 1 ≤ idx)
    (h2 : idx.toNat ≤ s.length) (hn : 0 < n) :
    lua_rotate s idx n =
      s.take (idx.toNat - 1) ++ rotl^[n.toNat] (s.drop (idx.toNat - 1)) := by
  have habs : lua_absindex s idx = idx := by
    unfold lua_absindex
    rw [if_pos (by omega : (0 : ℤ) < idx)]
  unfold lua_rotate
  rw [habs, if_pos hn]
  have hj1 : 1 ≤ idx.toNat := by omega
  have hpre : (s.take (idx.toNat - 1)).length = idx.toNat - 1 := by
    rw [List.length_take]; omega
  have hseg : s.drop (idx.toNat - 1) ≠ [] := by
    intro hc
    have hl : (s.drop (idx.toNat - 1)).length = s.length - (idx.toNat - 1) :=
      List.length_drop _ _
    rw [hc] at hl
    simp at hl
    omega
  have key := rotPos_iter n.toNat (s.take (idx.toNat - 1)) (s.drop (idx.toNat - 1)) hseg
  rw [hpre] at key
  have hjj : idx.toNat - 1 + 1 = idx.toNat := by omega
  have htt : idx.toNat - 1 + (s.drop (idx.toNat - 1)).length = s.length := by
    rw [List.length_drop]; omega
  rw [hjj, htt, List.take_append_drop] at key
  exact key

/-- For a valid positive index and `n < 0`, the shim's rotate right-rotates
(toward the top) the segment from `idx` to the top, `-n` times. -/
theorem lua_rotate_eq_neg {V : Type} (s : List V) (idx n : ℤ) (h1 : 1 ≤ idx)
    (h2 : idx.toNat ≤ s.length) (hn : n < 0) :
    lua_rotate s idx n =
      s.take (idx.toNat - 1) ++ rotr^[(-n).toNat] (s.drop (idx.toNat - 1)) := by
  have habs : lua_absindex s idx = idx := by
    unfold lua_absindex
    rw [if_pos (by omega : (0 : ℤ) < idx)]
  unfold lua_rotate
  rw [habs, if_neg (by omega : ¬0 < n), if_pos hn]
  have hj1 : 1 ≤ idx.toNat := by omega
  have hpre : (s.take (idx.toNat - 1)).length = idx.toNat - 1 := by
    rw [List.length_take]; omega
  have hseg : s.drop (idx.toNat - 1) ≠ [] := by
    intro hc
    have hl : (s.drop (idx.toNat - 1)).length = s.length - (idx.toNat - 1) :=
      List.length_drop _ _
    rw [hc] at hl
    simp at hl
    omega
  have key := rotNeg_iter (-n).toNat (s.take (idx.toNat - 1)) (s.drop (idx.toNat - 1)) hseg
  rw [hpre] at key
  have hjj : idx.toNat - 1 + 1 = idx.toNat := by omega
  have htt : idx.toNat - 1 + (s.drop (idx.toNat - 1)).length = s.length := by
    rw [List.length_drop]; omega
  rw [hjj, htt, List.take_append_drop] at key
  exact key

/-- C3: the shim's `lua_rotate` diverges from a native Lua 5.4 rotate: on
the stack `[10, 20, 30]` with `idx = 1` and `n = 1` (a rotation count
within the sub-stack size), the shim produces `[20, 30, 10]` (rotation
toward the base) while the native Lua 5.4 rotate produces `[30, 10, 20]`
(rotation toward the top) — the rotation direction is inverted. -/
theorem lua_rotate_c3_divergence :
    lua_rotate ([10, 20, 30] : List ℕ) 1 1 = [20, 30, 10] ∧
      nativeRotate ([10, 20, 30] : List ℕ) 1 1 = [30, 10, 20] ∧
      lua_rotate ([10, 20, 30] : List ℕ) 1 1 ≠
        nativeRotate ([10, 20, 30] : List ℕ) 1 1 := by
  decide

/-- C6: for every stack of three or more elements, every valid index and
every rotation count `n`, the shim's `lua_rotate idx n` followed by
`lua_rotate idx (-n)` restores the original stack arrangement. -/
theorem lua_rotate_inverse {V : Type} (s : List V) (idx n : ℤ) (h1 : 1 ≤ idx)
    (h2 : idx.toNat ≤ s.length) (h3 : 3 ≤ s.length) :
    lua_rotate (lua_rotate s idx n) idx (-n) = s := by
  rcases lt_trichotomy n 0 with hn | rfl | hn
  · rw [lua_rotate_eq_neg s idx n h1 h2 hn]
    set pre := s.take (idx.toNat - 1) with hpre
    set seg := s.drop (idx.toNat - 1) with hseg
    have hlen : (pre ++ rotr^[(-n).toNat] seg).length = s.length := by
      rw [List.length_append, rotr_iterate_length, hpre, hseg,
        List.length_take, List.length_drop]
      omega
    have hpl : pre.length = idx.toNat - 1 := by
      rw [hpre, List.length_take]; omega
    rw [lua_rotate_eq_pos (pre ++ rotr^[(-n).toNat] seg) idx (-n) h1 (by omega)
      (by omega)]
    rw [← hpl, List.take_left, List.drop_left, rotl_iterate_rotr, hpre, hseg,
      List.take_append_drop]
  · simp [lua_rotate]
  · rw [lua_rotate_eq_pos s idx n h1 h2 hn]
    set pre := s.take (idx.toNat - 1) with hpre
    set seg := s.drop (idx.toNat - 1) with hseg
    have hlen : (pre ++ rotl^[n.toNat] seg).length = s.length := by
      rw [List.length_append, rotl_iterate_length, hpre, hseg,
        List.length_take, List.length_drop]
      omega
    have hpl : pre.length = idx.toNat - 1 := by
      rw [hpre, List.length_take]; omega
    rw [lua_rotate_eq_neg (pre ++ rotl^[n.toNat] seg) idx (-n) h1 (by omega)
      (by omega)]
    rw [show (-(-n)).toNat = n.toNat from by omega]
    rw [← hpl, List.take_left, List.drop_left, rotr_iterate_rotl, hpre, hseg,
      List.take_append_drop]

/-- C6 witness: the rotate/unrotate round trip on the stack `[5, 6, 7, 8]`
at index 2 with count 5. -/
theorem lua_rotate_inverse_witness :
    (1 : ℤ) ≤ 2 ∧ (2 : ℤ).toNat ≤ ([5, 6, 7, 8] : List ℕ).length ∧
      3 ≤ ([5, 6, 7, 8] : List ℕ).length ∧
      lua_rotate (lua_rotate ([5, 6, 7, 8] : List ℕ) 2 5) 2 (-5) = [5, 6, 7, 8] :=
  ⟨by decide, by decide, by decide,
   lua_rotate_inverse [5, 6, 7, 8] 2 5 (by decide) (by decide) (by decide)⟩

theorem get_found {α : Type} [DecidableEq α] (st : TagRegistry α) (n : α) (t : ℕ)
    (h : lookupTag st.tag_map n = some t) : get_or_create_tag st n = (t, st) := by
  unfold get_or_create_tag
  rw [h]

theorem get_fresh {α : Type} [DecidableEq α] (st : TagRegistry α) (n : α)
    (h : lookupTag st.tag_map n = none) :
    get_or_create_tag st n =
      if MAX_USERDATA_TAGS ≤ st.next_tag then (0, ⟨st.tag_map, st.next_tag + 1⟩)
      else (st.next_tag, ⟨(n, st.next_tag) :: st.tag_map, st.next_tag + 1⟩) := by
  unfold get_or_create_tag
  rw [h]

theorem next_tag_step_fresh {α : Type} [DecidableEq α] (st : TagRegistry α) (n : α)
    (h : lookupTag st.tag_map n = none) :
    (get_or_create_tag st n).2.next_tag = st.next_tag + 1 := by
  rw [get_fresh st n h]
  split <;> rfl

theorem lookup_none_step {α : Type} [DecidableEq α] (st : TagRegistry α) (n x : α)
    (hne : x ≠ n) (hx : lookupTag st.tag_map x = none) :
    lookupTag (get_or_create_tag st n).2.tag_map x = none := by
  cases hn : lookupTag st.tag_map n with
  | some t => rw [get_found st n t hn]; exact hx
  | none =>
    rw [get_fresh st n hn]
    split
    · exact hx
    · simp only [lookupTag]
      rw [if_neg (fun he => hne he.symm)]
      exact hx

theorem lookup_some_step {α : Type} [DecidableEq α] (st : TagRegistry α) (n k : α)
    (v : ℕ) (hk : lookupTag st.tag_map k = some v) :
    lookupTag (get_or_create_tag st n).2.tag_map k = some v := by
  cases hn : lookupTag st.tag_map n with
  | some t => rw [get_found st n t hn]; exact hk
  | none =>
    rw [get_fresh st n hn]
    split
    · exact hk
    · simp only [lookupTag]
      have hne : n ≠ k := by
        intro he
        rw [he, hk] at hn
        cases hn
      rw [if_neg hne]
      exact hk

theorem exhausted_step {α : Type} [DecidableEq α] (st : TagRegistry α) (n x : α)
    (hx : lookupTag st.tag_map x = none) (hmax : MAX_USERDATA_TAGS ≤ st.next_tag) :
    lookupTag (get_or_create_tag st n).2.tag_map x = none ∧
      MAX_USERDATA_TAGS ≤ (get_or_create_tag st n).2.next_tag := by
  cases hn : lookupTag st.tag_map n with
  | some t => rw [get_found st n t hn]; exact ⟨hx, hmax⟩
  | none =>
    rw [get_fresh st n hn, if_pos hmax]
    refine ⟨hx, ?_⟩
    show MAX_USERDATA_TAGS ≤ st.next_tag + 1
    omega

theorem registerAll_cons {α : Type} [DecidableEq α] (st : TagRegistry α) (n : α)
    (ns : List α) :
    registerAll st (n :: ns) = registerAll (get_or_create_tag st n).2 ns := rfl

theorem registerAll_lookup_some {α : Type} [DecidableEq α] (ns : List α) :
    ∀ (st : TagRegistry α) (k : α) (v : ℕ), lookupTag st.tag_map k = some v →
      lookupTag (registerAll st ns).tag_map k = some v := by
  induction ns with
  | nil => intro st k v h; exact h
  | cons n ns ih =>
    intro st k v h
    rw [registerAll_cons]
    exact ih _ k v (lookup_some_step st n k v h)

theorem registerAll_lookup_none {α : Type} [DecidableEq α] (ns : List α) :
    ∀ (st : TagRegistry α) (x : α), x ∉ ns → lookupTag st.tag_map x = none →
      lookupTag (registerAll st ns).tag_map x = none := by
  induction ns with
  | nil => intro st x _ h; exact h
  | cons n ns ih =>
    intro st x hx h
    rw [registerAll_cons]
    have hne : x ≠ n := fun he => hx (he ▸ List.mem_cons_self n ns)
    exact ih _ x (fun hm => hx (List.mem_cons_of_mem n hm)) (lookup_none_step st n x hne h)

theorem registerAll_next_fresh {α : Type} [DecidableEq α] (ns : List α) :
    ∀ st : TagRegistry α, ns.Nodup → (∀ n ∈ ns, lookupTag st.tag_map n = none) →
      (registerAll st ns).next_tag = st.next_tag + ns.length := by
  induction ns with
  | nil => intro st _ _; rfl
  | cons n ns ih =>
    intro st hnd hfresh
    rw [registerAll_cons]
    have hn : lookupTag st.tag_map n = none := hfresh n (List.mem_cons_self n ns)
    have hnd' : ns.Nodup := (List.nodup_cons.mp hnd).2
    have hnmem : n ∉ ns := (List.nodup_cons.mp hnd).1
    have hfresh' : ∀ m ∈ ns, lookupTag (get_or_create_tag st n).2.tag_map m = none := by
      intro m hm
      have hne : m ≠ n := fun he => hnmem (he ▸ hm)
      exact lookup_none_step st n m hne (hfresh m (List.mem_cons_of_mem n hm))
    rw [ih _ hnd' hfresh', next_tag_step_fresh st n hn]
    simp only [List.length_cons]
    omega

theorem registerAll_exhausted {α : Type} [DecidableEq α] (ns : List α) :
    ∀ (st : TagRegistry α) (x : α), lookupTag st.tag_map x = none →
      MAX_USERDATA_TAGS ≤ st.next_tag →
      lookupTag (registerAll st ns).tag_map x = none ∧
        MAX_USERDATA_TAGS ≤ (registerAll st ns).next_tag := by
  induction ns with
  | nil => intro st x h hm; exact ⟨h, hm⟩
  | cons n ns ih =>
    intro st x h hm
    rw [registerAll_cons]
    obtain ⟨h', hm'⟩ := exhausted_step st n x h hm
    exact ih _ x h' hm'

theorem reachable_registerAll {α : Type} [DecidableEq α] (ns : List α) :
    ∀ st : TagRegistry α, Reachable st → Reachable (registerAll st ns) := by
  induction ns with
  | nil => intro st h; exact h
  | cons n ns ih =>
    intro st h
    rw [registerAll_cons]
    exact ih _ (Reachable.step st n h)

theorem registryInv_init {α : Type} [DecidableEq α] :
    RegistryInv (initRegistry (α := α)) := by
  refine ⟨le_refl 1, fun k v h => ?_, fun k₁ k₂ v h₁ h₂ => ?_⟩
  · simp [lookupTag, initRegistry] at h
  · simp [lookupTag, initRegistry] at h₁

theorem registryInv_step {α : Type} [DecidableEq α] (st : TagRegistry α) (n : α)
    (h : RegistryInv st) : RegistryInv (get_or_create_tag st n).2 := by
  obtain ⟨h1, hbound, hinj⟩ := h
  cases hn : lookupTag st.tag_map n with
  | some t => rw [get_found st n t hn]; exact ⟨h1, hbound, hinj⟩
  | none =>
    by_cases hmax : MAX_USERDATA_TAGS ≤ st.next_tag
    · rw [get_fresh st n hn, if_pos hmax]
      refine ⟨?_, fun k v hkv => ?_, fun k₁ k₂ v h₁ h₂ => hinj k₁ k₂ v h₁ h₂⟩
      · show 1 ≤ st.next_tag + 1
        omega
      · have hb := hbound k v hkv
        refine ⟨hb.1, ?_, hb.2.2⟩
        show v + 1 ≤ st.next_tag + 1
        omega
    · rw [get_fresh st n hn, if_neg hmax]
      refine ⟨?_, fun k v hkv => ?_, fun k₁ k₂ v h₁ h₂ => ?_⟩
      · show 1 ≤ st.next_tag + 1
        omega
      · replace hkv : lookupTag ((n, st.next_tag) :: st.tag_map) k = some v := hkv
        simp only [lookupTag] at hkv
        by_cases he : n = k
        · rw [if_pos he] at hkv
          have hv : st.next_tag = v := by injection hkv
          refine ⟨by omega, ?_, by omega⟩
          show v + 1 ≤ st.next_tag + 1
          omega
        · rw [if_neg he] at hkv
          have hb := hbound k v hkv
          refine ⟨hb.1, ?_, hb.2.2⟩
          show v + 1 ≤ st.next_tag + 1
          omega
      · replace h₁ : lookupTag ((n, st.next_tag) :: st.tag_map) k₁ = some v := h₁
        replace h₂ : lookupTag ((n, st.next_tag) :: st.tag_map) k₂ = some v := h₂
        simp only [lookupTag] at h₁ h₂
        by_cases he₁ : n = k₁ <;> by_cases he₂ : n = k₂
        · rw [← he₁, ← he₂]
        · rw [if_pos he₁] at h₁
          rw [if_neg he₂] at h₂
          have hv : st.next_tag = v := by injection h₁
          have hb := hbound k₂ v h₂
          omega
        · rw [if_neg he₁] at h₁
          rw [if_pos he₂] at h₂
          have hv : st.next_tag = v := by injection h₂
          have hb := hbound k₁ v h₁
          omega
        · rw [if_neg he₁] at h₁
          rw [if_neg he₂] at h₂
          exact hinj k₁ k₂ v h₁ h₂

theorem reachable_inv {α : Type} [DecidableEq α] (st : TagRegistry α)
    (h : Reachable st) : RegistryInv st := by
  induction h with
  | init => exact registryInv_init
  | step st n _ ih => exact registryInv_step st n ih

theorem lookup_after_call_nonzero {α : Type} [DecidableEq α] (st : TagRegistry α)
    (n : α) (h0 : (get_or_create_tag st n).1 ≠ 0) :
    lookupTag (get_or_create_tag st n).2.tag_map n = some (get_or_create_tag st n).1 := by
  cases hn : lookupTag st.tag_map n with
  | some t => rw [get_found st n t hn]; exact hn
  | none =>
    rw [get_fresh st n hn]
    rw [get_fresh st n hn] at h0
    split
    · rename_i hmax
      rw [if_pos hmax] at h0
      exact absurd rfl h0
    · simp [lookupTag]

theorem call_fresh_result {α : Type} [DecidableEq α] (st : TagRegistry α) (n : α)
    (hn : lookupTag st.tag_map n = none) :
    (get_or_create_tag st n).1 = 0 ∨
      ((get_or_create_tag st n).1 = st.next_tag ∧
        st.next_tag < MAX_USERDATA_TAGS) := by
  rw [get_fresh st n hn]
  split
  · left; rfl
  · rename_i hlt
    right
    exact ⟨rfl, by omega⟩

/-- C4: after `MAX_USERDATA_TAGS` distinct type names have been registered
through `get_or_create_tag`, the next distinct name yields tag 0 (the
untagged fallback) instead of failing, and creating userdata with tag 0
requests a plain allocation, for which no finalizer is ever invoked. -/
theorem get_or_create_tag_exhaustion {α : Type} [DecidableEq α] (ns : List α)
    (x : α) (hlen : ns.length = MAX_USERDATA_TAGS) (hnd : ns.Nodup) (hx : x ∉ ns) :
    (get_or_create_tag (registerAll initRegistry ns) x).1 = 0 ∧
    (∀ sz : ℕ,
      newuserdata_tagged sz (get_or_create_tag (registerAll initRegistry ns) x).1 =
        .plain sz ∧
      (newuserdata_tagged sz
          (get_or_create_tag (registerAll initRegistry ns) x).1).finalizerTag =
        none) := by
  have hfresh : ∀ n ∈ ns, lookupTag (initRegistry (α := α)).tag_map n = none :=
    fun _ _ => rfl
  have hnext : (registerAll (initRegistry (α := α)) ns).next_tag =
      1 + MAX_USERDATA_TAGS := by
    rw [registerAll_next_fresh ns initRegistry hnd hfresh, hlen]
    rfl
  have hlook : lookupTag (registerAll (initRegistry (α := α)) ns).tag_map x = none :=
    registerAll_lookup_none ns initRegistry x hx rfl
  have h0 : (get_or_create_tag (registerAll (initRegistry (α := α)) ns) x).1 = 0 := by
    rw [get_fresh _ x hlook, if_pos (by rw [hnext]; omega)]
  refine ⟨h0, fun sz => ?_⟩
  rw [h0]
  exact ⟨rfl, rfl⟩

/-- C4 witness: 256 distinct names (`0..255`) registered from the initial
statics, then name 256 gets tag 0 and a plain, finalizer-free allocation. -/
theorem get_or_create_tag_exhaustion_witness :
    (List.range 256).length = MAX_USERDATA_TAGS ∧ (List.range 256).Nodup ∧
      256 ∉ List.range 256 ∧
      (get_or_create_tag (registerAll (initRegistry (α := ℕ)) (List.range 256)) 256).1
        = 0 ∧
      newuserdata_tagged 8
          (get_or_create_tag (registerAll (initRegistry (α := ℕ)) (List.range 256))
            256).1 =
        .plain 8 :=
  ⟨by simp [MAX_USERDATA_TAGS], List.nodup_range 256, by simp,
   (get_or_create_tag_exhaustion (List.range 256) 256 (by simp [MAX_USERDATA_TAGS])
     (List.nodup_range 256) (by simp)).1,
   ((get_or_create_tag_exhaustion (List.range 256) 256 (by simp [MAX_USERDATA_TAGS])
     (List.nodup_range 256) (by simp)).2 8).1⟩

/-- C5 counterexample: after the 255 distinct names `0..254` exhaust the
nonzero tags, the two distinct fresh names `255` and `256` both receive
tag 0 — `get_or_create_tag` is not injective on distinct names. -/
theorem get_or_create_tag_c5_counterexample :
    (255 : ℕ) ≠ 256 ∧
      (get_or_create_tag (registerAll (initRegistry (α := ℕ)) (List.range 255)) 255).1
        = 0 ∧
      (get_or_create_tag
          (get_or_create_tag (registerAll (initRegistry (α := ℕ)) (List.range 255))
            255).2
          256).1 = 0 := by
  have hfresh : ∀ n ∈ List.range 255,
      lookupTag (initRegistry (α := ℕ)).tag_map n = none := fun _ _ => rfl
  have hnext : (registerAll (initRegistry (α := ℕ)) (List.range 255)).next_tag = 256 := by
    rw [registerAll_next_fresh _ initRegistry (List.nodup_range 255) hfresh]
    simp [initRegistry]
  have hlook : lookupTag (registerAll (initRegistry (α := ℕ)) (List.range 255)).tag_map
      255 = none :=
    registerAll_lookup_none _ initRegistry 255 (by simp) rfl
  have hmax : MAX_USERDATA_TAGS ≤
      (registerAll (initRegistry (α := ℕ)) (List.range 255)).next_tag := by
    rw [hnext]
    decide
  have hA := get_fresh _ 255 hlook
  rw [if_pos hmax] at hA
  have hlook2 : lookupTag (registerAll (initRegistry (α := ℕ)) (List.range 255)).tag_map
      256 = none :=
    registerAll_lookup_none _ initRegistry 256 (by simp) rfl
  obtain ⟨hlook2', hmax2⟩ :=
    exhausted_step (registerAll (initRegistry (α := ℕ)) (List.range 255)) 255 256
      hlook2 hmax
  refine ⟨by decide, ?_, ?_⟩
  · rw [hA]
  · rw [get_fresh _ 256 hlook2', if_pos hmax2]

/-- C5 (amended): in any reachable registry state, distinct names that
both receive a nonzero tag receive different tags (the fallback tag 0 can
be shared once the tag space is exhausted), and repeated calls with the
same name — with any other calls in between — return the same tag as the
first call. -/
theorem get_or_create_tag_c5_amended {α : Type} [DecidableEq α]
    (st : TagRegistry α) (hst : Reachable st) (A : α) :
    (∀ (B : α) (ops : List α), A ≠ B →
      (get_or_create_tag st A).1 ≠ 0 →
      (get_or_create_tag (registerAll (get_or_create_tag st A).2 ops) B).1 ≠ 0 →
      (get_or_create_tag (registerAll (get_or_create_tag st A).2 ops) B).1 ≠
        (get_or_create_tag st A).1) ∧
    (∀ ops : List α,
      (get_or_create_tag (registerAll (get_or_create_tag st A).2 ops) A).1 =
        (get_or_create_tag st A).1) := by
  constructor
  · intro B ops hAB hA0 hB0
    have hlkA1 : lookupTag (get_or_create_tag st A).2.tag_map A =
        some (get_or_create_tag st A).1 :=
      lookup_after_call_nonzero st A hA0
    have hlkA2 : lookupTag (registerAll (get_or_create_tag st A).2 ops).tag_map A =
        some (get_or_create_tag st A).1 :=
      registerAll_lookup_some ops _ A _ hlkA1
    have hinv2 : RegistryInv (registerAll (get_or_create_tag st A).2 ops) :=
      reachable_inv _ (reachable_registerAll ops _ (Reachable.step st A hst))
    cases hB : lookupTag (registerAll (get_or_create_tag st A).2 ops).tag_map B with
    | some tB =>
      rw [get_found _ B tB hB]
      intro hcontra
      have hcontra' : tB = (get_or_create_tag st A).1 := hcontra
      exact hAB (hinv2.2.2 A B _ hlkA2 (by rw [hB, hcontra']))
    | none =>
      rcases call_fresh_result _ B hB with h0 | ⟨hres, hlt⟩
      · exact absurd h0 hB0
      · rw [hres]
        have hb := hinv2.2.1 A _ hlkA2
        omega
  · intro ops
    cases hA : lookupTag st.tag_map A with
    | some t =>
      rw [get_found st A t hA]
      have h2 : lookupTag (registerAll st ops).tag_map A = some t :=
        registerAll_lookup_some ops st A t hA
      rw [get_found _ A t h2]
    | none =>
      by_cases hmax : MAX_USERDATA_TAGS ≤ st.next_tag
      · rw [get_fresh st A hA, if_pos hmax]
        have hA' : lookupTag
            (TagRegistry.mk st.tag_map (st.next_tag + 1) : TagRegistry α).tag_map A =
            none := hA
        have hmax' : MAX_USERDATA_TAGS ≤
            (TagRegistry.mk st.tag_map (st.next_tag + 1) : TagRegistry α).next_tag := by
          show MAX_USERDATA_TAGS ≤ st.next_tag + 1
          omega
        obtain ⟨hl, hm⟩ := registerAll_exhausted ops _ A hA' hmax'
        rw [get_fresh _ A hl, if_pos hm]
      · rw [get_fresh st A hA, if_neg hmax]
        have hl1 : lookupTag
            (TagRegistry.mk ((A, st.next_tag) :: st.tag_map) (st.next_tag + 1) :
              TagRegistry α).tag_map A = some st.next_tag := by
          simp [lookupTag]
        have hl2 := registerAll_lookup_some ops _ A _ hl1
        rw [get_found _ A _ hl2]

/-- C5 witness: from the initial statics, names 0 and 1 get the distinct
nonzero tags 1 and 2, and a repeated call with name 0 returns 1 again. -/
theorem get_or_create_tag_c5_amended_witness :
    (0 : ℕ) ≠ 1 ∧
      (get_or_create_tag (initRegistry (α := ℕ)) 0).1 = 1 ∧
      (get_or_create_tag (get_or_create_tag (initRegistry (α := ℕ)) 0).2 1).1 = 2 ∧
      (get_or_create_tag (registerAll (get_or_create_tag (initRegistry (α := ℕ)) 0).2 [])
          1).1 ≠
        (get_or_create_tag (initRegistry (α := ℕ)) 0).1 ∧
      (get_or_create_tag (registerAll (get_or_create_tag (initRegistry (α := ℕ)) 0).2 [])
          0).1 =
        (get_or_create_tag (initRegistry (α := ℕ)) 0).1 :=
  ⟨by decide, by decide, by decide,
   (get_or_create_tag_c5_amended initRegistry Reachable.init 0).1 1 []
     (by decide) (by decide) (by decide),
   (get_or_create_tag_c5_amended initRegistry Reachable.init 0).2 []⟩

end LuauCompatProof
